import Mathlib

/-
Verification development for the silencio tree-reconstruction pipeline.

The Python sources (silencio/treeutils.py and silencio/gdrive3.py) are
embedded shallowly:
  * Python dicts become association lists (List (String × _)); keys are
    produced upstream with distinct values, and insertion order is kept,
    matching dict semantics.
  * unbounded while-loops (find_root, paths_from_root, segment_trees)
    take an explicit fuel argument; a none result means the loop had not
    finished within the given fuel (so an infinite Python loop is the
    function returning none at every fuel).
  * random.choice in segment_trees becomes an explicit pick function, so
    that statements can quantify over every possible sequence of draws.
-/

set_option maxHeartbeats 1000000

namespace Silencio

/-- the empty string, named so literals never directly follow an identifier. -/
def emptyStr : String := ""

/-- association-list lookup, modelling Python dict access. -/
def alookup {α : Type} : List (String × α) → String → Option α
  | [], _ => none
  | kv :: rest, k => if kv.1 = k then some kv.2 else alookup rest k

/-- association-list update, modelling Python dict assignment: replace the
value when the key is present (keeping its position, as dicts do), otherwise
append the binding at the end (dicts keep insertion order). -/
def aupdate {α : Type} : List (String × α) → String → α → List (String × α)
  | [], k, v => [(k, v)]
  | kv :: rest, k, v => if kv.1 = k then (k, v) :: rest else kv :: aupdate rest k v

/-- the keys of an association list, in order. -/
def akeys {α : Type} (l : List (String × α)) : List String := l.map (fun kv => kv.1)

/-- one row of the directories DataFrame handed to make_drive_adjacency_list:
an id, a display name, and the (already flattened) parent id. -/
structure FolderRec where
  id : String
  name : String
  parents : String
deriving DecidableEq, Repr

/-- the value stored for each id by make_drive_adjacency_list; the Python
dict also repeats the id itself, which the association-list key already
carries. -/
structure Node where
  name : String
  children : List String
  parent : String
deriving DecidableEq, Repr

abbrev Adj := List (String × Node)

abbrev Tree := List (String × String)

abbrev Forest := List (String × Tree)

/-- translation of treeutils.make_drive_adjacency_list: for every directory
row, record its name, the set of ids whose parent is this row's id, and its
parent id. -/
def make_drive_adjacency_list (directories : List FolderRec) : Adj :=
  directories.map (fun d =>
    (d.id, ⟨d.name,
           (directories.filter (fun s => s.parents == d.id)).map (fun s => s.id),
           d.parents⟩))

/-- translation of treeutils.find_root: walk parent pointers while the
current id is a key of the adjacency map; the unbounded while-loop carries
fuel, and none means the walk was still running when fuel ran out. -/
def find_root (adjacencies : Adj) : Nat → String → Option String
  | 0, _ => none
  | fuel + 1, node_id =>
    match alookup adjacencies node_id with
    | none => some node_id
    | some node => find_root adjacencies fuel node.parent

/-- a worklist entry of paths_from_root: the id, its node, and the path
value the Python code merges into the node dict (absent is modelled by
the empty string, matching node.get with default). -/
abbrev WItem := String × Node × String

/-- the children pushed for one visited node: the adjacency entries whose key
is in the node's children set, each given parent path  path ++ slash. -/
def pfr_step_children (adjacencies : Adj) (node : Node) (path : String) : List WItem :=
  (adjacencies.filter (fun kv => node.children.contains kv.1)).map
    (fun kv => (kv.1, kv.2, path ++ "/"))

/-- the while-loop of treeutils.paths_from_root: pop the last worklist item,
record id ↦ parent-path ++ name, push its children.  (The Python loop also
prints a warning when the path is already a value of the tree; printing has
no effect on the returned tree and is dropped here.) -/
def pfr_loop (adjacencies : Adj) : Nat → List WItem → Tree → Option Tree
  | 0, unfinished, tree => if unfinished.isEmpty then some tree else none
  | fuel + 1, unfinished, tree =>
    match unfinished.getLast? with
    | none => some tree
    | some (node_id, node, pre) =>
      pfr_loop adjacencies fuel
        (unfinished.dropLast ++ pfr_step_children adjacencies node (pre ++ node.name))
        (aupdate tree node_id (pre ++ node.name))

/-- translation of treeutils.paths_from_root: start from the adjacency
entries whose parent equals the root id, then run the worklist loop. -/
def paths_from_root (adjacencies : Adj) (root_id : String) (fuel : Nat) : Option Tree :=
  pfr_loop adjacencies fuel
    ((adjacencies.filter (fun kv => kv.2.parent == root_id)).map (fun kv => (kv.1, kv.2, emptyStr)))
    []

/-- the list-comprehension filter of segment_trees: keep the unrooted ids
that are not keys of the newly built tree. -/
def prune_unrooted (unrooted : List String) (tree : Tree) : List String :=
  unrooted.filter (fun k => !(tree.any (fun kv => kv.1 == k)))

/-- the while-loop of treeutils.segment_trees.  pick stands for the
random.choice call; the fuel of the two inner walks is adjacencies.length + 1,
which is exactly enough on acyclic inputs (none still models divergence). -/
def segment_trees_loop (adjacencies : Adj) (pick : List String → String) :
    Nat → List String → Forest → Option Forest
  | 0, unrooted, segments => if unrooted.isEmpty then some segments else none
  | fuel + 1, unrooted, segments =>
    if unrooted.isEmpty then some segments
    else
      match find_root adjacencies (adjacencies.length + 1) (pick unrooted) with
      | none => none
      | some root =>
        match paths_from_root adjacencies root (adjacencies.length + 1) with
        | none => none
        | some tree =>
          segment_trees_loop adjacencies pick fuel
            (prune_unrooted unrooted tree) (aupdate segments root tree)

/-- translation of treeutils.segment_trees: starting from every adjacency
key unrooted, repeatedly pick an unrooted id, find its root, build that
root's tree, and drop the tree's ids from the unrooted pool. -/
def segment_trees (adjacencies : Adj) (pick : List String → String) : Option Forest :=
  segment_trees_loop adjacencies pick (adjacencies.length + 1) (akeys adjacencies) []

/-- translation of treeutils.get_segment_ids: each root is mapped to the set
holding its tree's keys together with the root itself. -/
def get_segment_ids (segments : Forest) : List (String × List String) :=
  segments.map (fun rt => (rt.1, akeys rt.2 ++ [rt.1]))

/-- translation of treeutils.pick_disjoint_set: the first characteristic
whose value set contains the entry, or none. -/
def pick_disjoint_set (entry : String) : List (String × List String) → Option String
  | [] => none
  | cv :: rest => if cv.2.contains entry then some cv.1 else pick_disjoint_set entry rest

/-- one row of the files DataFrame: id, display name, flattened parent id. -/
structure FileRec where
  id : String
  name : String
  parents : String
deriving DecidableEq, Repr

/-- insertion into a sorted list of strings, used to model Python sorted()
and the sorted group keys of DataFrame.groupby. -/
def insertSorted (x : String) : List String → List String
  | [] => [x]
  | y :: ys => if x ≤ y then x :: y :: ys else y :: insertSorted x ys

/-- sorting a list of strings by insertion sort (kernel-reducible, unlike
mergeSort, so concrete runs evaluate by decide). -/
def sortStrings (l : List String) : List String := l.foldr insertSorted []

/-- the inner row loop of add_files_to_directory_tree: assign each row's id
the parent path followed by its name. -/
def add_group (tree : Tree) (parent_path : String) (rows : List FileRec) : Tree :=
  rows.foldl (fun tr row => aupdate tr row.id (parent_path ++ row.name)) tree

/-- translation of treeutils.add_files_to_directory_tree.  groupby sorts the
distinct parent ids; each group is the rows with that parent, in order.  A
group whose parent id is neither the root nor a current tree key is skipped
(the Python continue), silently dropping its rows. -/
def add_files_to_directory_tree (tree : Tree) (files : List FileRec) (root : String) : Tree :=
  (sortStrings ((files.map (fun f => f.parents)).dedup)).foldl
    (fun tr parent_id =>
      if parent_id == root then
        add_group tr emptyStr (files.filter (fun f => f.parents == parent_id))
      else
        match alookup tr parent_id with
        | none => tr
        | some p => add_group tr (p ++ "/") (files.filter (fun f => f.parents == parent_id)))
    tree

/-- translation of treeutils.add_files_to_segmented_trees: map every file to
the segment containing its parent (none when no segment matches), group by
that membership — pandas drops the none group, silently losing those files —
and add each group to its segment's tree. -/
def add_files_to_segmented_trees (segments : Forest) (files : List FileRec) : Forest :=
  (sortStrings ((files.filterMap
      (fun f => pick_disjoint_set f.parents (get_segment_ids segments))).dedup)).foldl
    (fun segs root =>
      segs.map (fun rt =>
        if rt.1 == root then
          (rt.1, add_files_to_directory_tree rt.2
            (files.filter (fun f =>
              pick_disjoint_set f.parents (get_segment_ids segments) == some root)) root)
        else rt))
    segments

/-- insert into a Python set modelled as a duplicate-free list. -/
def setInsert (s : List String) (x : String) : List String :=
  if x ∈ s then s else s ++ [x]

/-- the collisions defaultdict update of flip_path_tree:
collisions[path].update(new ids), creating an empty set on first touch. -/
def collisionsUpdate (collisions : List (String × List String)) (path : String)
    (ids : List String) : List (String × List String) :=
  match alookup collisions path with
  | none => aupdate collisions path (ids.foldl setInsert [])
  | some s => aupdate collisions path (ids.foldl setInsert s)

/-- the body of flip_path_tree's loop over the tree items (kv is (id, path)):
if the path was already produced, record both ids in collisions; either way
the path is (re)assigned to the current id. -/
def flip_step (acc : Tree × List (String × List String)) (kv : String × String) :
    Tree × List (String × List String) :=
  match alookup acc.1 kv.2 with
  | some prev => (aupdate acc.1 kv.2 kv.1, collisionsUpdate acc.2 kv.2 [kv.1, prev])
  | none => (aupdate acc.1 kv.2 kv.1, acc.2)

/-- translation of treeutils.flip_path_tree: fold the tree into a path → id
dict plus a collisions dict, then rebuild the path → id dict with its keys
sorted. -/
def flip_path_tree (tree : Tree) : Tree × List (String × List String) :=
  let fc := tree.foldl flip_step ([], [])
  ((sortStrings (akeys fc.1)).filterMap (fun p => (alookup fc.1 p).map (fun i => (p, i))),
   fc.2)

/-- one page returned by the Drive listing collaborator, as consumed by
DriveScanner.__next__: the records and the optional continuation token. -/
structure DrivePage (α : Type) where
  files : List α
  nextPageToken : Option String
deriving DecidableEq, Repr

/-- the mutable state of a DriveScanner that __next__ touches. -/
structure ScannerState (α : Type) where
  results : List α
  page_token : Option String
  page_counter : Nat
  is_queried : Bool
  complete : Bool
deriving DecidableEq, Repr

/-- the typed failure raised by DriveScanner.__next__ on a completed scanner
(a StopIteration in the Python source). -/
inductive ScanFailure where
  | alreadyComplete
deriving DecidableEq, Repr

/-- translation of DriveScanner.__next__: fail on a completed scanner
without fetching; otherwise fetch one page with the last-seen token, append
its records, and mark the scan complete exactly when no next token came
back. -/
def scanner_next {α : Type} (fetch : Option String → DrivePage α) (s : ScannerState α) :
    Except ScanFailure (ScannerState α × List α) :=
  if s.complete then Except.error ScanFailure.alreadyComplete
  else
    let response := fetch s.page_token
    Except.ok (⟨s.results ++ response.files, response.nextPageToken,
               s.page_counter + 1, true, response.nextPageToken.isNone⟩,
               response.files)

/-- one raw record accumulated by the scanner, with the fields
make_manifest reads; a missing parents field is none (pandas NaN). -/
structure RawRec where
  id : String
  name : String
  mimeType : String
  parents : Option (List String)
deriving DecidableEq, Repr

/-- a manifest row after dropna and the join of the parents list. -/
structure ManifestRec where
  id : String
  name : String
  mimeType : String
  parents : String
deriving DecidableEq, Repr

/-- the Drive folder mimeType constant of gdrive3. -/
def folderMime : String := "application/vnd.google-apps.folder"

/-- translation of DriveScanner.make_manifest: drop records with no parents
value, join each parents list into one string, and split on the folder
mimeType into (directories, files).  (The empty-results early return yields
the same two empty tables this general path yields.) -/
def make_manifest (results : List RawRec) : List ManifestRec × List ManifestRec :=
  let manifest := results.filterMap (fun r =>
    match r.parents with
    | none => none
    | some ps => some (⟨r.id, r.name, r.mimeType, String.join ps⟩ : ManifestRec))
  (manifest.filter (fun r => r.mimeType == folderMime),
   manifest.filter (fun r => !(r.mimeType == folderMime)))

/-- translation of DriveScanner.extract_filesystem with root_id=None, from
the manifest level down: build the adjacency list, segment it (pick models
random.choice), attach the files, take the first tree key as the root id,
and flip that tree.  none models the Python run not terminating or the
empty-trees IndexError. -/
def extract_filesystem (directories : List FolderRec) (files : List FileRec)
    (pick : List String → String) :
    Option (Tree × List (String × List String) × String) :=
  match segment_trees (make_drive_adjacency_list directories) pick with
  | none => none
  | some segments =>
    let trees := add_files_to_segmented_trees segments files
    match trees with
    | [] => none
    | rt0 :: _ =>
      match alookup trees rt0.1 with
      | none => none
      | some tree => some ((flip_path_tree tree).1, (flip_path_tree tree).2, rt0.1)

/-! Specification-side definitions and invariant predicates. -/

/-- the list of ancestor display names along the parent chain of an id, from
the child of the given root down to the id itself (fuelled like the walks
above; none when the id is not a key or its chain does not reach the root
within fuel).  This is the spec's description of a buildTree path — the
sequence of ancestor names from the tree's root to the node — against which
the code's worklist construction is compared. -/
def ancestorNames (adjacencies : Adj) (root_id : String) : Nat → String → Option (List String)
  | 0, _ => none
  | fuel + 1, k =>
    match alookup adjacencies k with
    | none => none
    | some nd =>
      if nd.parent = root_id then some [nd.name]
      else (ancestorNames adjacencies root_id fuel nd.parent).map (fun ns => ns ++ [nd.name])

/-- the spec's slash-joining of a name sequence (no leading or trailing
separator). -/
def joinPath : List String → String
  | [] => emptyStr
  | n :: rest => rest.foldl (fun acc s => acc ++ "/" ++ s) n

/-- the shape make_drive_adjacency_list guarantees: distinct keys, and the
children sets exactly inverse to the parent pointers. -/
def GoodAdj (adjacencies : Adj) : Prop :=
  (akeys adjacencies).Nodup ∧
  ∀ k nd c cnd, alookup adjacencies k = some nd → alookup adjacencies c = some cnd →
    (c ∈ nd.children ↔ cnd.parent = k)

/-- acyclicity of the folder set, phrased operationally: from every key the
parent walk reaches a non-key id within length + 1 steps (on a cyclic chain
it would run forever, on an acyclic one every step moves to a new key). -/
abbrev Acyc (adjacencies : Adj) : Prop :=
  ∀ kv ∈ adjacencies, (find_root adjacencies (adjacencies.length + 1) kv.1).isSome

/-- the ids carried by a worklist. -/
def UIds (u : List WItem) : List String := u.map (fun it => it.1)

/-- a worklist item is coherent: its node is the adjacency entry of its id,
and the path the loop will assign it (its prefix followed by its name) is
the joined ancestor-name sequence of its id. -/
def ItemOK (adjacencies : Adj) (root_id : String) (it : WItem) : Prop :=
  alookup adjacencies it.1 = some it.2.1 ∧
  ∃ ns, ancestorNames adjacencies root_id (adjacencies.length + 1) it.1 = some ns ∧
    it.2.2 ++ it.2.1.name = joinPath ns

/-- every path recorded in the tree is the joined ancestor-name sequence of
its id. -/
def TreeOK (adjacencies : Adj) (root_id : String) (tree : Tree) : Prop :=
  ∀ k p, alookup tree k = some p →
    ∃ nd ns, alookup adjacencies k = some nd ∧
      ancestorNames adjacencies root_id (adjacencies.length + 1) k = some ns ∧
      p = joinPath ns

/-- every key whose parent is the root or an already-visited key is itself
visited or scheduled. -/
def ClosedUnder (adjacencies : Adj) (root_id : String) (tree : Tree) (u : List WItem) : Prop :=
  ∀ k knd, alookup adjacencies k = some knd →
    (knd.parent = root_id ∨ knd.parent ∈ akeys tree) →
    k ∈ akeys tree ∨ k ∈ UIds u

/-- every visited or scheduled key hangs from the root or from a visited
key. -/
def ParentsOK (adjacencies : Adj) (root_id : String) (tree : Tree) (u : List WItem) : Prop :=
  ∀ k, k ∈ akeys tree ++ UIds u →
    ∃ knd, alookup adjacencies k = some knd ∧
      (knd.parent = root_id ∨ knd.parent ∈ akeys tree)

/-- the full loop invariant of paths_from_root's worklist. -/
def PfrInv (adjacencies : Adj) (root_id : String) (u : List WItem) (tree : Tree) : Prop :=
  (akeys tree ++ UIds u).Nodup ∧
  TreeOK adjacencies root_id tree ∧
  (∀ it ∈ u, ItemOK adjacencies root_id it) ∧
  ClosedUnder adjacencies root_id tree u ∧
  ParentsOK adjacencies root_id tree u

/-- the invariant of segment_trees' while-loop: the unvisited pool is a
duplicate-free list of adjacency keys; the recorded segments have distinct
external roots, each holding exactly the keys whose parent walk ends at its
root, with spec-conformant paths; every key is still unvisited or already
covered, and never both. -/
def SegInv (adjacencies : Adj) (unrooted : List String) (segments : Forest) : Prop :=
  unrooted.Nodup ∧
  (∀ k ∈ unrooted, (alookup adjacencies k).isSome) ∧
  (akeys segments).Nodup ∧
  (∀ rt ∈ segments, alookup adjacencies rt.1 = none ∧
    (∀ k, k ∈ akeys rt.2 ↔ ((alookup adjacencies k).isSome ∧
      find_root adjacencies (adjacencies.length + 1) k = some rt.1)) ∧
    TreeOK adjacencies rt.1 rt.2) ∧
  (∀ k, (alookup adjacencies k).isSome →
    k ∈ unrooted ∨ ∃ rt ∈ segments, k ∈ akeys rt.2) ∧
  (∀ k ∈ unrooted, ¬ ∃ rt ∈ segments, k ∈ akeys rt.2)

/-- the invariant of flip_path_tree's fold after the items pre have been
processed: the paths dict has distinct keys and maps every path to the id of
the last pre-item producing it; a path produced at most once is absent from
collisions; a path produced at least twice has a collision set holding
exactly the ids of the pre-items producing it. -/
def FlipInv (pre : Tree) (acc : Tree × List (String × List String)) : Prop :=
  (akeys acc.1).Nodup ∧
  (∀ p, alookup acc.1 p =
    ((pre.filter (fun kv => kv.2 == p)).getLast?).map (fun kv => kv.1)) ∧
  (∀ p, (pre.filter (fun kv => kv.2 == p)).length ≤ 1 → alookup acc.2 p = none) ∧
  (∀ p, 2 ≤ (pre.filter (fun kv => kv.2 == p)).length →
    ∃ s, alookup acc.2 p = some s ∧
      ∀ i, i ∈ s ↔ i ∈ (pre.filter (fun kv => kv.2 == p)).map (fun kv => kv.1))

/-! Concrete inputs used by the counterexample evaluations and witnesses. -/

/-- a concrete drive id. -/
def idA : String := "a"

/-- a concrete drive id. -/
def idB : String := "b"

/-- a concrete drive id. -/
def idC : String := "c"

/-- a concrete external root id. -/
def rootOne : String := "r1"

/-- a concrete external root id. -/
def rootTwo : String := "r2"

/-- a concrete display name. -/
def nameFA : String := "fa"

/-- a concrete display name. -/
def nameFB : String := "fb"

/-- a concrete path string shared by two ids. -/
def nameX : String := "x"

/-- a deterministic stand-in for random.choice: take the first element. -/
def pick_first (u : List String) : String := u.headD emptyStr

/-- a deterministic stand-in for random.choice: take the last element. -/
def pick_last (u : List String) : String := (u.getLast?).getD emptyStr

/-- two folders hanging from two different external roots. -/
def dirsTwoRoots : List FolderRec := [⟨idA, nameFA, rootOne⟩, ⟨idB, nameFB, rootTwo⟩]

/-- a two-folder chain: b inside a, a inside the external root r1. -/
def dirsChain : List FolderRec := [⟨idA, nameFA, rootOne⟩, ⟨idB, nameFB, idA⟩]

/-- the expected path of b in the chain example. -/
def pathFAFB : String := "fa/fb"

/-- the tree paths_from_root builds for the chain example. -/
def treeChainExpected : Tree := [(idA, nameFA), (idB, pathFAFB)]

/-- a cyclic adjacency map: a's parent is b and b's parent is a. -/
def adjCyc : Adj := [(idA, ⟨nameFA, [idB], idB⟩), (idB, ⟨nameFB, [idA], idA⟩)]

/-- an id → path tree in which two ids produce the same path. -/
def treeCollide : Tree := [(idA, nameX), (idB, nameX)]

/-- an id → path tree in which three ids produce the same path. -/
def treeCollideThree : Tree := [(idA, nameX), (idB, nameX), (idC, nameX)]

/-- a one-tree forest whose only tree holds folder a under root r1. -/
def segsOne : Forest := [(rootOne, [(idA, nameFA)])]

/-- a file record whose parent id r2 appears in no tree of segsOne. -/
def fileMissing : FileRec := ⟨idC, nameFB, rootTwo⟩

/-- scanner record batch: a folder, a file, and a record with no parents. -/
def rawRecs : List RawRec :=
  [⟨idA, nameFA, folderMime, some [rootOne]⟩,
   ⟨idB, nameFB, emptyStr, some [rootOne]⟩,
   ⟨idC, nameFB, emptyStr, none⟩]

/-- a listing collaborator that always answers an empty final page. -/
def fetchNone : Option String → DrivePage String := fun _ => ⟨[], none⟩

/-- a scanner state that has already completed. -/
def scDone : ScannerState String := ⟨[], none, 0, true, true⟩

/-- a scanner state that has not completed. -/
def scFresh : ScannerState String := ⟨[], none, 0, false, false⟩

/-! Association-list lemmas. -/

lemma alookup_isSome_iff_mem {α : Type} (l : List (String × α)) (k : String) :
    (alookup l k).isSome ↔ k ∈ akeys l := by
  induction l with
  | nil => simp [alookup, akeys]
  | cons kv rest ih =>
    by_cases h : kv.1 = k
    · simp [alookup, akeys, h]
    · simp [alookup, akeys, h, ih]
      intro he
      exact absurd he.symm h

lemma alookup_eq_none_iff {α : Type} (l : List (String × α)) (k : String) :
    alookup l k = none ↔ k ∉ akeys l := by
  rw [← alookup_isSome_iff_mem]
  cases alookup l k <;> simp

lemma alookup_some_mem {α : Type} {l : List (String × α)} {k : String} {v : α}
    (h : alookup l k = some v) : (k, v) ∈ l := by
  induction l with
  | nil => simp [alookup] at h
  | cons kv rest ih =>
    by_cases hk : kv.1 = k
    · simp [alookup, hk] at h
      subst hk
      subst h
      exact List.mem_cons_self kv rest
    · simp [alookup, hk] at h
      exact List.mem_cons_of_mem kv (ih h)

lemma mem_akeys_of_mem {α : Type} {l : List (String × α)} {k : String} {v : α}
    (h : (k, v) ∈ l) : k ∈ akeys l :=
  List.mem_map_of_mem (fun kv => kv.1) h

lemma alookup_of_mem_nodup {α : Type} {l : List (String × α)} {k : String} {v : α}
    (hnd : (akeys l).Nodup) (h : (k, v) ∈ l) : alookup l k = some v := by
  induction l with
  | nil => simp at h
  | cons kv rest ih =>
    rcases List.mem_cons.mp h with he | hm
    · subst he
      simp [alookup]
    · have hk : kv.1 ≠ k := by
        intro hcontra
        have : k ∈ akeys rest := mem_akeys_of_mem hm
        rw [akeys, List.map_cons] at hnd
        exact (List.nodup_cons.mp hnd).1 (hcontra ▸ this)
      have hnd2 : (akeys rest).Nodup := by
        rw [akeys, List.map_cons] at hnd
        exact (List.nodup_cons.mp hnd).2
      simp [alookup, hk]
      exact ih hnd2 hm

lemma alookup_append_left {α : Type} {l m : List (String × α)} {k : String} {v : α}
    (h : alookup l k = some v) : alookup (l ++ m) k = some v := by
  induction l with
  | nil => simp [alookup] at h
  | cons kv rest ih =>
    by_cases hk : kv.1 = k
    · simp [alookup, hk] at h ⊢
      exact h
    · simp [alookup, hk] at h ⊢
      exact ih h

lemma alookup_append_right {α : Type} {l m : List (String × α)} {k : String}
    (h : alookup l k = none) : alookup (l ++ m) k = alookup m k := by
  induction l with
  | nil => simp
  | cons kv rest ih =>
    by_cases hk : kv.1 = k
    · simp [alookup, hk] at h
    · simp [alookup, hk] at h ⊢
      exact ih h

lemma aupdate_eq_append {α : Type} {l : List (String × α)} {k : String} (v : α)
    (h : k ∉ akeys l) : aupdate l k v = l ++ [(k, v)] := by
  induction l with
  | nil => rfl
  | cons kv rest ih =>
    have hk : kv.1 ≠ k := by
      intro hcontra
      exact h (by simp [akeys, hcontra])
    have hrest : k ∉ akeys rest := by
      intro hcontra
      exact h (by simp [akeys] at hcontra ⊢; exact Or.inr hcontra)
    simp [aupdate, hk]
    exact ih hrest

lemma akeys_append {α : Type} (l m : List (String × α)) :
    akeys (l ++ m) = akeys l ++ akeys m := by
  simp [akeys]

lemma alookup_aupdate_self {α : Type} (l : List (String × α)) (k : String) (v : α) :
    alookup (aupdate l k v) k = some v := by
  induction l with
  | nil => simp [aupdate, alookup]
  | cons kv rest ih =>
    by_cases hk : kv.1 = k
    · simp [aupdate, hk, alookup]
    · simp [aupdate, hk, alookup, ih]

lemma alookup_aupdate_ne {α : Type} (l : List (String × α)) {k k2 : String} (v : α)
    (h : k ≠ k2) : alookup (aupdate l k v) k2 = alookup l k2 := by
  induction l with
  | nil => simp [aupdate, alookup, h]
  | cons kv rest ih =>
    by_cases hk : kv.1 = k
    · simp [aupdate, hk, alookup, h]
    · simp [aupdate, hk, alookup, ih]

/-! Sorting and set-insertion lemmas. -/

lemma insertSorted_perm (x : String) (l : List String) :
    (insertSorted x l).Perm (x :: l) := by
  induction l with
  | nil => exact List.Perm.refl _
  | cons y ys ih =>
    by_cases h : x ≤ y
    · simp [insertSorted, h]
    · simp [insertSorted, h]
      exact ((ih.cons y).trans (List.Perm.swap x y ys))

lemma sortStrings_perm (l : List String) : (sortStrings l).Perm l := by
  induction l with
  | nil => exact List.Perm.refl _
  | cons x xs ih =>
    have h1 : (sortStrings (x :: xs)).Perm (x :: sortStrings xs) :=
      insertSorted_perm x (sortStrings xs)
    exact h1.trans (ih.cons x)

lemma mem_setInsert (s : List String) (x y : String) :
    y ∈ setInsert s x ↔ y ∈ s ∨ y = x := by
  by_cases h : x ∈ s
  · simp [setInsert, h]
    intro he
    subst he
    exact h
  · simp [setInsert, h]

/-! find_root and ancestorNames lemmas. -/

lemma find_root_succ_none {adjacencies : Adj} {k : String} (f : Nat)
    (hl : alookup adjacencies k = none) :
    find_root adjacencies (f + 1) k = some k := by
  rw [find_root, hl]

lemma find_root_succ_some {adjacencies : Adj} {k : String} {nd : Node} (f : Nat)
    (hl : alookup adjacencies k = some nd) :
    find_root adjacencies (f + 1) k = find_root adjacencies f nd.parent := by
  rw [find_root, hl]

lemma ancestorNames_succ_none {adjacencies : Adj} {root_id k : String} (f : Nat)
    (hl : alookup adjacencies k = none) :
    ancestorNames adjacencies root_id (f + 1) k = none := by
  rw [ancestorNames, hl]

lemma ancestorNames_succ_some {adjacencies : Adj} {root_id k : String} {nd : Node} (f : Nat)
    (hl : alookup adjacencies k = some nd) :
    ancestorNames adjacencies root_id (f + 1) k =
      if nd.parent = root_id then some [nd.name]
      else (ancestorNames adjacencies root_id f nd.parent).map (fun ns => ns ++ [nd.name]) := by
  rw [ancestorNames, hl]

lemma find_root_mono {adjacencies : Adj} {f : Nat} {k r : String}
    (h : find_root adjacencies f k = some r) :
    find_root adjacencies (f + 1) k = some r := by
  induction f generalizing k with
  | zero => simp [find_root] at h
  | succ n ih =>
    cases hl : alookup adjacencies k with
    | none =>
      rw [find_root_succ_none n hl] at h
      rw [find_root_succ_none (n + 1) hl]
      exact h
    | some nd =>
      rw [find_root_succ_some n hl] at h
      rw [find_root_succ_some (n + 1) hl]
      exact ih h

lemma find_root_le {adjacencies : Adj} {f g : Nat} {k r : String}
    (hfg : f ≤ g) (h : find_root adjacencies f k = some r) :
    find_root adjacencies g k = some r := by
  induction g with
  | zero =>
    have : f = 0 := Nat.le_zero.mp hfg
    subst this
    exact h
  | succ n ih =>
    rcases Nat.lt_or_ge f (n + 1) with hlt | hge
    · exact find_root_mono (ih (Nat.lt_succ_iff.mp hlt))
    · have : f = n + 1 := Nat.le_antisymm hfg hge
      subst this
      exact h

lemma find_root_root_lookup {adjacencies : Adj} {f : Nat} {k r : String}
    (h : find_root adjacencies f k = some r) : alookup adjacencies r = none := by
  induction f generalizing k with
  | zero => simp [find_root] at h
  | succ n ih =>
    cases hl : alookup adjacencies k with
    | none =>
      rw [find_root_succ_none n hl] at h
      injection h with h
      subst h
      exact hl
    | some nd =>
      rw [find_root_succ_some n hl] at h
      exact ih h

lemma ancestorNames_mono {adjacencies : Adj} {root_id : String} {f : Nat} {k : String}
    {ns : List String} (h : ancestorNames adjacencies root_id f k = some ns) :
    ancestorNames adjacencies root_id (f + 1) k = some ns := by
  induction f generalizing k ns with
  | zero => simp [ancestorNames] at h
  | succ n ih =>
    cases hl : alookup adjacencies k with
    | none =>
      rw [ancestorNames_succ_none n hl] at h
      exact absurd h (by simp)
    | some nd =>
      rw [ancestorNames_succ_some n hl] at h
      rw [ancestorNames_succ_some (n + 1) hl]
      by_cases hp : nd.parent = root_id
      · simp only [if_pos hp] at h ⊢
        exact h
      · simp only [if_neg hp] at h ⊢
        cases hin : ancestorNames adjacencies root_id n nd.parent with
        | none =>
          rw [hin] at h
          simp at h
        | some ns2 =>
          rw [hin] at h
          rw [ih hin]
          exact h

lemma ancestorNames_le {adjacencies : Adj} {root_id : String} {f g : Nat} {k : String}
    {ns : List String} (hfg : f ≤ g)
    (h : ancestorNames adjacencies root_id f k = some ns) :
    ancestorNames adjacencies root_id g k = some ns := by
  induction g with
  | zero =>
    have : f = 0 := Nat.le_zero.mp hfg
    subst this
    exact h
  | succ n ih =>
    rcases Nat.lt_or_ge f (n + 1) with hlt | hge
    · exact ancestorNames_mono (ih (Nat.lt_succ_iff.mp hlt))
    · have : f = n + 1 := Nat.le_antisymm hfg hge
      subst this
      exact h

lemma ancestorNames_ne_nil {adjacencies : Adj} {root_id : String} {f : Nat} {k : String}
    {ns : List String} (h : ancestorNames adjacencies root_id f k = some ns) :
    ns ≠ [] := by
  cases f with
  | zero => simp [ancestorNames] at h
  | succ n =>
    cases hl : alookup adjacencies k with
    | none =>
      rw [ancestorNames_succ_none n hl] at h
      simp at h
    | some nd =>
      rw [ancestorNames_succ_some n hl] at h
      by_cases hp : nd.parent = root_id
      · simp only [if_pos hp] at h
        injection h with h
        subst h
        simp
      · simp only [if_neg hp] at h
        cases hin : ancestorNames adjacencies root_id n nd.parent with
        | none =>
          rw [hin] at h
          simp at h
        | some ns2 =>
          rw [hin] at h
          simp at h
          subst h
          simp

lemma ancestorNames_find_root {adjacencies : Adj} {root_id : String} {f : Nat} {k : String}
    {ns : List String} (hroot : alookup adjacencies root_id = none)
    (h : ancestorNames adjacencies root_id f k = some ns) :
    find_root adjacencies (f + 1) k = some root_id := by
  induction f generalizing k ns with
  | zero => simp [ancestorNames] at h
  | succ n ih =>
    cases hl : alookup adjacencies k with
    | none =>
      rw [ancestorNames_succ_none n hl] at h
      simp at h
    | some nd =>
      rw [ancestorNames_succ_some n hl] at h
      rw [find_root_succ_some (n + 1) hl]
      by_cases hp : nd.parent = root_id
      · rw [hp]
        exact find_root_succ_none n hroot
      · simp only [if_neg hp] at h
        cases hin : ancestorNames adjacencies root_id n nd.parent with
        | none =>
          rw [hin] at h
          simp at h
        | some ns2 =>
          exact ih hin

lemma find_root_ancestorNames {adjacencies : Adj} {root_id : String} {f : Nat}
    {k : String} {nd : Node} (hroot : alookup adjacencies root_id = none)
    (h : find_root adjacencies f k = some root_id)
    (hk : alookup adjacencies k = some nd) :
    (ancestorNames adjacencies root_id f k).isSome := by
  induction f generalizing k nd with
  | zero => simp [find_root] at h
  | succ n ih =>
    rw [find_root_succ_some n hk] at h
    rw [ancestorNames_succ_some n hk]
    cases hp : alookup adjacencies nd.parent with
    | none =>
      have hpr : nd.parent = root_id := by
        cases n with
        | zero => simp [find_root] at h
        | succ m =>
          rw [find_root_succ_none m hp] at h
          injection h
      simp [hpr]
    | some pnd =>
      have hne : nd.parent ≠ root_id := by
        intro hcontra
        rw [hcontra, hroot] at hp
        exact absurd hp (by simp)
      simp only [if_neg hne]
      have hih := ih h hp
      cases hin : ancestorNames adjacencies root_id n nd.parent with
      | none =>
        rw [hin] at hih
        simp at hih
      | some ns2 => simp

lemma find_root_self_parent {adjacencies : Adj} {k : String} {nd : Node}
    (hk : alookup adjacencies k = some nd) (hp : nd.parent = k) :
    ∀ f, find_root adjacencies f k = none := by
  intro f
  induction f with
  | zero => rfl
  | succ n ih =>
    rw [find_root_succ_some n hk, hp]
    exact ih

/-! joinPath lemmas. -/

lemma joinPath_append (ns : List String) (x : String) (h : ns ≠ []) :
    joinPath (ns ++ [x]) = joinPath ns ++ "/" ++ x := by
  cases ns with
  | nil => exact absurd rfl h
  | cons n rest =>
    show joinPath (n :: (rest ++ [x])) = joinPath (n :: rest) ++ "/" ++ x
    simp only [joinPath]
    rw [List.foldl_append]
    rfl

/-! Lemmas for flip_path_tree. -/

lemma akeys_aupdate_mem {α : Type} {l : List (String × α)} {k : String} (v : α)
    (h : k ∈ akeys l) : akeys (aupdate l k v) = akeys l := by
  induction l with
  | nil => simp [akeys] at h
  | cons kv rest ih =>
    by_cases hk : kv.1 = k
    · simp [aupdate, hk, akeys]
    · have hrest : k ∈ akeys rest := by
        simp [akeys] at h
        rcases h with h | h
        · exact absurd h.symm hk
        · simpa [akeys] using h
      simp [aupdate, hk, akeys]
      exact ih hrest

lemma mem_of_getLast?_eq {α : Type} {l : List α} {a : α} (h : l.getLast? = some a) :
    a ∈ l := by
  have hm : a ∈ l.getLast? := Option.mem_def.mpr h
  obtain ⟨hne, heq⟩ := List.mem_getLast?_eq_getLast hm
  exact heq ▸ List.getLast_mem hne

lemma collisionsUpdate_ne {colls : List (String × List String)} {q p : String}
    (ids : List String) (h : q ≠ p) :
    alookup (collisionsUpdate colls q ids) p = alookup colls p := by
  unfold collisionsUpdate
  cases alookup colls q with
  | none => exact alookup_aupdate_ne colls _ h
  | some s => exact alookup_aupdate_ne colls _ h

lemma getLast?_none_iff {α : Type} (l : List α) : l.getLast? = none ↔ l = [] := by
  cases l with
  | nil => simp
  | cons a as => simp [List.getLast?_cons]

lemma flip_step_inv {pre : Tree} {acc : Tree × List (String × List String)}
    (kv : String × String) (hinv : FlipInv pre acc) :
    FlipInv (pre ++ [kv]) (flip_step acc kv) := by
  obtain ⟨hnd, hmain, hcnone, hcsome⟩ := hinv
  have hfilter : ∀ p, (pre ++ [kv]).filter (fun e => e.2 == p) =
      pre.filter (fun e => e.2 == p) ++ (if kv.2 = p then [kv] else []) := by
    intro p
    by_cases hp : kv.2 = p <;>
      simp [List.filter_append, List.filter_cons, hp]
  cases hl : alookup acc.1 kv.2 with
  | none =>
    -- first time this path appears: no collision is recorded
    have hempty : pre.filter (fun e => e.2 == kv.2) = [] := by
      have hm := hmain kv.2
      rw [hl] at hm
      cases hf : (pre.filter (fun e => e.2 == kv.2)).getLast? with
      | none => exact (getLast?_none_iff _).mp hf
      | some e => rw [hf] at hm; simp at hm
    have hnotmem : kv.2 ∉ akeys acc.1 := by
      rw [← alookup_eq_none_iff]
      exact hl
    rw [show flip_step acc kv = (aupdate acc.1 kv.2 kv.1, acc.2) by
      rw [flip_step, hl]]
    refine ⟨?_, ?_, ?_, ?_⟩
    · show (akeys (aupdate acc.1 kv.2 kv.1)).Nodup
      rw [aupdate_eq_append kv.1 hnotmem, akeys_append]
      rw [List.nodup_append]
      refine ⟨hnd, by simp [akeys], ?_⟩
      intro x hx
      simp [akeys]
      intro hcontra
      exact hnotmem (hcontra ▸ hx)
    · intro p
      by_cases hp : kv.2 = p
      · subst hp
        show alookup (aupdate acc.1 kv.2 kv.1) kv.2 = _
        rw [alookup_aupdate_self, hfilter, if_pos rfl, hempty, List.nil_append]
        rfl
      · show alookup (aupdate acc.1 kv.2 kv.1) p = _
        rw [alookup_aupdate_ne acc.1 kv.1 hp, hfilter, if_neg hp, List.append_nil]
        exact hmain p
    · intro p hlen
      rw [hfilter] at hlen
      by_cases hp : kv.2 = p
      · subst hp
        exact hcnone kv.2 (by rw [hempty]; simp)
      · rw [if_neg hp, List.append_nil] at hlen
        exact hcnone p hlen
    · intro p hlen
      rw [hfilter] at hlen
      by_cases hp : kv.2 = p
      · subst hp
        rw [if_pos rfl, hempty, List.nil_append] at hlen
        simp at hlen
      · rw [if_neg hp, List.append_nil] at hlen
        obtain ⟨s, hs, hmem⟩ := hcsome p hlen
        refine ⟨s, hs, ?_⟩
        intro i
        rw [hfilter, if_neg hp, List.append_nil]
        exact hmem i
  | some prev =>
    -- the path collides: both ids are recorded
    have hne : pre.filter (fun e => e.2 == kv.2) ≠ [] := by
      intro hcontra
      have hm := hmain kv.2
      rw [hl, hcontra] at hm
      simp at hm
    have hprev : ∃ elast, (pre.filter (fun e => e.2 == kv.2)).getLast? = some elast ∧
        elast.1 = prev := by
      have hm := hmain kv.2
      rw [hl] at hm
      cases hf : (pre.filter (fun e => e.2 == kv.2)).getLast? with
      | none => exact absurd ((getLast?_none_iff _).mp hf) hne
      | some e =>
        rw [hf] at hm
        simp at hm
        exact ⟨e, rfl, hm.symm⟩
    obtain ⟨elast, hflast, helast⟩ := hprev
    have hlast_mem : prev ∈ (pre.filter (fun e => e.2 == kv.2)).map (fun e => e.1) := by
      rw [← helast]
      exact List.mem_map_of_mem _ (mem_of_getLast?_eq hflast)
    have hmem2 : kv.2 ∈ akeys acc.1 := by
      rw [← alookup_isSome_iff_mem, hl]
      rfl
    rw [show flip_step acc kv =
        (aupdate acc.1 kv.2 kv.1, collisionsUpdate acc.2 kv.2 [kv.1, prev]) by
      rw [flip_step, hl]]
    refine ⟨?_, ?_, ?_, ?_⟩
    · show (akeys (aupdate acc.1 kv.2 kv.1)).Nodup
      rw [akeys_aupdate_mem kv.1 hmem2]
      exact hnd
    · intro p
      by_cases hp : kv.2 = p
      · subst hp
        show alookup (aupdate acc.1 kv.2 kv.1) kv.2 = _
        rw [alookup_aupdate_self, hfilter, if_pos rfl, List.getLast?_concat]
        rfl
      · show alookup (aupdate acc.1 kv.2 kv.1) p = _
        rw [alookup_aupdate_ne acc.1 kv.1 hp, hfilter, if_neg hp, List.append_nil]
        exact hmain p
    · intro p hlen
      rw [hfilter] at hlen
      by_cases hp : kv.2 = p
      · subst hp
        rw [if_pos rfl, List.length_append] at hlen
        have hz : (pre.filter (fun e => e.2 == kv.2)).length = 0 := by
          simp only [List.length_cons, List.length_nil] at hlen
          omega
        exact absurd (List.length_eq_zero.mp hz) hne
      · rw [if_neg hp, List.append_nil] at hlen
        rw [collisionsUpdate_ne _ hp]
        exact hcnone p hlen
    · intro p hlen
      by_cases hp : kv.2 = p
      · subst hp
        show ∃ s, alookup (collisionsUpdate acc.2 kv.2 [kv.1, prev]) kv.2 = some s ∧ _
        unfold collisionsUpdate
        rcases Nat.lt_or_ge (pre.filter (fun e => e.2 == kv.2)).length 2 with hsmall | hbig
        · -- exactly one previous occurrence: fresh collision set {current, prev}
          have hcn : alookup acc.2 kv.2 = none := hcnone kv.2 (Nat.lt_succ_iff.mp hsmall)
          rw [hcn]
          refine ⟨_, alookup_aupdate_self acc.2 kv.2 _, ?_⟩
          intro i
          have hone : ∃ e, pre.filter (fun e => e.2 == kv.2) = [e] := by
            refine List.length_eq_one.mp ?_
            have hge : 1 ≤ (pre.filter (fun e => e.2 == kv.2)).length := by
              rcases Nat.eq_zero_or_pos (pre.filter (fun e => e.2 == kv.2)).length with h0 | h1
              · exact absurd (List.length_eq_zero.mp h0) hne
              · exact h1
            exact Nat.le_antisymm (Nat.lt_succ_iff.mp hsmall) hge
          obtain ⟨e, he⟩ := hone
          rw [he] at hflast
          simp at hflast
          have he1 : e.1 = prev := by rw [hflast]; exact helast
          show i ∈ setInsert (setInsert [] kv.1) prev ↔ _
          rw [mem_setInsert, mem_setInsert, hfilter, if_pos rfl, he]
          simp only [List.map_append, List.map_cons, List.map_nil, List.mem_append,
            List.mem_singleton, List.not_mem_nil, false_or, he1]
          tauto
        · -- two or more previous occurrences: extend the existing set
          obtain ⟨s, hs, hmem⟩ := hcsome kv.2 hbig
          rw [hs]
          refine ⟨_, alookup_aupdate_self acc.2 kv.2 _, ?_⟩
          intro i
          show i ∈ setInsert (setInsert s kv.1) prev ↔ _
          rw [mem_setInsert, mem_setInsert, hfilter, if_pos rfl, List.map_append,
            List.mem_append]
          simp only [List.map_cons, List.map_nil, List.mem_singleton]
          constructor
          · rintro ((h | h) | h)
            · exact Or.inl ((hmem i).mp h)
            · exact Or.inr h
            · exact Or.inl (h ▸ hlast_mem)
          · rintro (h | h)
            · exact Or.inl (Or.inl ((hmem i).mpr h))
            · exact Or.inl (Or.inr h)
      · rw [hfilter, if_neg hp, List.append_nil] at hlen
        obtain ⟨s, hs, hmem⟩ := hcsome p hlen
        refine ⟨s, ?_, ?_⟩
        · rw [collisionsUpdate_ne _ hp]
          exact hs
        · intro i
          rw [hfilter, if_neg hp, List.append_nil]
          exact hmem i

lemma flip_foldl_inv : ∀ (rest : List (String × String)) (pre : Tree)
    (acc : Tree × List (String × List String)), FlipInv pre acc →
    FlipInv (pre ++ rest) (rest.foldl flip_step acc)
  | [], pre, acc, hinv => by simpa using hinv
  | kv :: rest, pre, acc, hinv => by
    have hstep := flip_foldl_inv rest (pre ++ [kv]) (flip_step acc kv) (flip_step_inv kv hinv)
    simpa [List.append_assoc] using hstep

lemma flip_inv_init : FlipInv [] ([], []) := by
  refine ⟨List.nodup_nil, ?_, ?_, ?_⟩
  · intro p
    rfl
  · intro p _
    rfl
  · intro p h
    simp [List.filter_nil] at h

lemma flip_fold_spec (tree : Tree) : FlipInv tree (tree.foldl flip_step ([], [])) := by
  have h := flip_foldl_inv tree [] ([], []) flip_inv_init
  simpa using h

/-- the keys of the rebuilt sorted mapping are the given keys that are
present in the original mapping. -/
lemma akeys_rebuild (paths : Tree) (keys2 : List String) :
    akeys (keys2.filterMap (fun p => (alookup paths p).map (fun i => (p, i)))) =
      keys2.filter (fun p => (alookup paths p).isSome) := by
  induction keys2 with
  | nil => rfl
  | cons q rest ih =>
    cases hl : alookup paths q with
    | none => simp [List.filterMap_cons, hl, List.filter_cons, ih]
    | some v =>
      simp [List.filterMap_cons, hl, List.filter_cons, akeys]
      exact ih

lemma mem_rebuild {paths : Tree} {keys2 : List String} {q i : String} :
    (q, i) ∈ keys2.filterMap (fun p => (alookup paths p).map (fun j => (p, j))) ↔
      q ∈ keys2 ∧ alookup paths q = some i := by
  rw [List.mem_filterMap]
  constructor
  · rintro ⟨a, ha, hf⟩
    cases hl : alookup paths a with
    | none =>
      rw [hl] at hf
      simp at hf
    | some v =>
      rw [hl] at hf
      simp at hf
      obtain ⟨h1, h2⟩ := hf
      subst h1
      subst h2
      exact ⟨ha, hl⟩
  · rintro ⟨hq, hl⟩
    refine ⟨q, hq, ?_⟩
    rw [hl]
    rfl

/-- rebuilding an association list over a permutation of its keys does not
change lookups (used for the sorted namespace flip_path_tree returns). -/
lemma alookup_rebuild (paths : Tree) (hnd : (akeys paths).Nodup) (p : String) :
    alookup ((sortStrings (akeys paths)).filterMap
      (fun q => (alookup paths q).map (fun i => (q, i)))) p = alookup paths p := by
  have hperm : (sortStrings (akeys paths)).Perm (akeys paths) := sortStrings_perm _
  have hndk : (akeys ((sortStrings (akeys paths)).filterMap
      (fun q => (alookup paths q).map (fun i => (q, i))))).Nodup := by
    rw [akeys_rebuild]
    exact (hperm.nodup_iff.mpr hnd).filter _
  cases hl : alookup paths p with
  | some v =>
    apply alookup_of_mem_nodup hndk
    apply mem_rebuild.mpr
    refine ⟨hperm.mem_iff.mpr ?_, hl⟩
    rw [← alookup_isSome_iff_mem, hl]
    rfl
  | none =>
    cases hr : alookup ((sortStrings (akeys paths)).filterMap
        (fun q => (alookup paths q).map (fun i => (q, i)))) p with
    | none => rfl
    | some v =>
      have hmem := mem_rebuild.mp (alookup_some_mem hr)
      rw [hl] at hmem
      exact absurd hmem.2 (by simp)

/-- C9: on any id → path tree, a path produced by two or more ids is mapped
by the returned collisions dict to exactly the set of all ids that produced
it (none is lost, however many collide), and the returned path → id mapping
resolves that path to the id of the last tree item that produced it. -/
theorem C9_flip_collision_sets (tree : Tree) (p : String)
    (hcol : 2 ≤ (tree.filter (fun kv => kv.2 == p)).length) :
    ∃ s, alookup (flip_path_tree tree).2 p = some s ∧
      (∀ i, i ∈ s ↔ (i, p) ∈ tree) ∧
      alookup (flip_path_tree tree).1 p =
        ((tree.filter (fun kv => kv.2 == p)).getLast?).map (fun kv => kv.1) := by
  obtain ⟨hnd, hmain, _, hcsome⟩ := flip_fold_spec tree
  obtain ⟨s, hs, hmem⟩ := hcsome p hcol
  refine ⟨s, ?_, ?_, ?_⟩
  · show alookup (tree.foldl flip_step ([], [])).2 p = some s
    exact hs
  · intro i
    rw [hmem i]
    constructor
    · intro hi
      obtain ⟨kv, hkv, hkv1⟩ := List.mem_map.mp hi
      have hkv2 := List.mem_filter.mp hkv
      have : kv = (i, p) := by
        have hp : kv.2 = p := by simpa using hkv2.2
        cases kv
        simp at hkv1 hp
        simp [hkv1, hp]
      exact this ▸ hkv2.1
    · intro hi
      apply List.mem_map.mpr
      refine ⟨(i, p), List.mem_filter.mpr ⟨hi, by simp⟩, rfl⟩
  · show alookup (flip_path_tree tree).1 p = _
    have hunfold : (flip_path_tree tree).1 =
        (sortStrings (akeys (tree.foldl flip_step ([], [])).1)).filterMap
          (fun q => (alookup (tree.foldl flip_step ([], [])).1 q).map (fun i => (q, i))) := by
      rw [flip_path_tree]
    rw [hunfold, alookup_rebuild _ hnd p]
    exact hmain p

/-- witness for C9: three ids all mapped to the path x; the collision set
holds all three and the namespace-side value is the last id c. -/
theorem C9_flip_collision_sets_witness :
    2 ≤ (treeCollideThree.filter (fun kv => kv.2 == nameX)).length ∧
    ∃ s, alookup (flip_path_tree treeCollideThree).2 nameX = some s ∧
      (∀ i, i ∈ s ↔ (i, nameX) ∈ treeCollideThree) ∧
      alookup (flip_path_tree treeCollideThree).1 nameX =
        ((treeCollideThree.filter (fun kv => kv.2 == nameX)).getLast?).map (fun kv => kv.1) :=
  ⟨by decide, C9_flip_collision_sets treeCollideThree nameX (by decide)⟩

/-! Lemmas about the adjacency builder. -/

lemma alookup_map_rec {β α : Type} (key : β → String) (val : β → α) :
    ∀ (l : List β) (k : String) (v : α),
      alookup (l.map (fun d => (key d, val d))) k = some v → ∃ d ∈ l, key d = k ∧ val d = v := by
  intro l
  induction l with
  | nil => intro k v h; simp [alookup] at h
  | cons d rest ih =>
    intro k v h
    by_cases hk : key d = k
    · rw [List.map_cons] at h
      simp [alookup, hk] at h
      exact ⟨d, List.mem_cons_self d rest, hk, h⟩
    · rw [List.map_cons] at h
      simp [alookup, hk] at h
      obtain ⟨e, he, hek, hev⟩ := ih k v h
      exact ⟨e, List.mem_cons_of_mem d he, hek, hev⟩

lemma akeys_make (directories : List FolderRec) :
    akeys (make_drive_adjacency_list directories) = directories.map (fun d => d.id) := by
  simp [akeys, make_drive_adjacency_list, List.map_map]

lemma make_lookup {directories : List FolderRec} {k : String} {nd : Node}
    (h : alookup (make_drive_adjacency_list directories) k = some nd) :
    ∃ d ∈ directories, d.id = k ∧
      nd = ⟨d.name,
            (directories.filter (fun s => s.parents == d.id)).map (fun s => s.id),
            d.parents⟩ := by
  obtain ⟨d, hd, hk, hv⟩ := alookup_map_rec _ _ directories k nd h
  exact ⟨d, hd, hk, hv.symm⟩

lemma goodAdj_make (directories : List FolderRec)
    (hnd : (directories.map (fun d => d.id)).Nodup) :
    GoodAdj (make_drive_adjacency_list directories) := by
  constructor
  · rw [akeys_make]
    exact hnd
  · intro k nd c cnd hk hc
    obtain ⟨dk, hdk, hdkid, hdknd⟩ := make_lookup hk
    obtain ⟨dc, hdc, hdcid, hdcnd⟩ := make_lookup hc
    subst hdknd
    subst hdcnd
    show c ∈ (directories.filter (fun s => s.parents == dk.id)).map (fun s => s.id) ↔ _
    constructor
    · intro hmem
      obtain ⟨e, he, heid⟩ := List.mem_map.mp hmem
      have hef := List.mem_filter.mp he
      have hep : e.parents = dk.id := by simpa using hef.2
      have heq : e = dc := by
        apply List.inj_on_of_nodup_map hnd hef.1 hdc
        rw [heid, hdcid]
      show dc.parents = k
      rw [← heq, hep, hdkid]
    · intro hp
      apply List.mem_map.mpr
      refine ⟨dc, List.mem_filter.mpr ⟨hdc, ?_⟩, hdcid⟩
      have hdp : dc.parents = k := hp
      simp [hdp, ← hdkid]

/-! Worklist utilities. -/

lemma UIds_append (a b : List WItem) : UIds (a ++ b) = UIds a ++ UIds b := by
  simp [UIds]

lemma UIds_children (adjacencies : Adj) (nd : Node) (path : String) :
    UIds (pfr_step_children adjacencies nd path) =
      akeys (adjacencies.filter (fun kv => nd.children.contains kv.1)) := by
  simp [UIds, pfr_step_children, akeys, List.map_map]

lemma mem_UIds {u : List WItem} {it : WItem} (h : it ∈ u) : it.1 ∈ UIds u :=
  List.mem_map_of_mem _ h

lemma contains_iff_mem (l : List String) (a : String) : l.contains a = true ↔ a ∈ l :=
  List.elem_iff

lemma any_akeys (tree : Tree) (k : String) :
    tree.any (fun kv => kv.1 == k) = true ↔ k ∈ akeys tree := by
  rw [List.any_eq_true]
  constructor
  · rintro ⟨kv, hkv, hq⟩
    have hk : kv.1 = k := by simpa using hq
    exact hk ▸ mem_akeys_of_mem hkv
  · intro hmem
    obtain ⟨kv, hkv, heq⟩ := List.mem_map.mp hmem
    exact ⟨kv, hkv, by simp [heq]⟩

lemma treeOK_keys_isSome {adjacencies : Adj} {root_id : String} {tree : Tree}
    (h : TreeOK adjacencies root_id tree) :
    ∀ k ∈ akeys tree, (alookup adjacencies k).isSome := by
  intro k hk
  have hs : (alookup tree k).isSome := (alookup_isSome_iff_mem tree k).mpr hk
  cases hl : alookup tree k with
  | none => rw [hl] at hs; simp at hs
  | some p =>
    obtain ⟨nd, ns, hnd, _, _⟩ := h k p hl
    rw [hnd]
    rfl

lemma length_le_of_keys {α β : Type} {l : List (String × α)} {m : List (String × β)}
    (hnd : (akeys l).Nodup) (hsub : ∀ k ∈ akeys l, k ∈ akeys m) :
    l.length ≤ m.length := by
  have h1 : (akeys l).length ≤ (akeys m).length :=
    (List.subperm_of_subset hnd hsub).length_le
  simpa [akeys] using h1

lemma pop_decomp {u : List WItem} {it : WItem} (h : u.getLast? = some it) :
    u.dropLast ++ [it] = u ∧ it ∈ u := by
  have hne : u ≠ [] := by
    intro hc
    rw [hc] at h
    simp at h
  have heq : it = u.getLast hne := by
    rw [List.getLast?_eq_getLast_of_ne_nil hne] at h
    injection h with h
    exact h.symm
  exact ⟨by rw [heq]; exact List.dropLast_append_getLast hne, mem_of_getLast?_eq h⟩

lemma pfr_loop_succ_none {adjacencies : Adj} {u : List WItem} {tree : Tree} (f : Nat)
    (h : u.getLast? = none) : pfr_loop adjacencies (f + 1) u tree = some tree := by
  rw [pfr_loop, h]

lemma pfr_loop_succ_some {adjacencies : Adj} {u : List WItem} {tree : Tree}
    {node_id : String} {node : Node} {pre : String} (f : Nat)
    (h : u.getLast? = some (node_id, node, pre)) :
    pfr_loop adjacencies (f + 1) u tree =
      pfr_loop adjacencies f
        (u.dropLast ++ pfr_step_children adjacencies node (pre ++ node.name))
        (aupdate tree node_id (pre ++ node.name)) := by
  rw [pfr_loop, h]

lemma alookup_append_one {α : Type} {l : List (String × α)} {k0 k : String} {v0 v : α}
    (h : alookup (l ++ [(k0, v0)]) k = some v) :
    alookup l k = some v ∨ (alookup l k = none ∧ k = k0 ∧ v = v0) := by
  cases hl : alookup l k with
  | some w =>
    have hw := alookup_append_left (m := [(k0, v0)]) hl
    rw [hw] at h
    exact Or.inl h
  | none =>
    rw [alookup_append_right hl] at h
    by_cases hk : k0 = k
    · simp [alookup, hk] at h
      exact Or.inr ⟨rfl, hk.symm, h.symm⟩
    · simp [alookup, hk] at h

/-- popping the last worklist item and pushing its children preserves the
paths_from_root invariant; the popped id is new to the tree, so the tree
grows strictly. -/
lemma pfr_step_inv {adjacencies : Adj} {root_id : String}
    (hG : GoodAdj adjacencies) (hroot : alookup adjacencies root_id = none)
    (hacyc : Acyc adjacencies)
    {u : List WItem} {tree : Tree} {node_id : String} {node : Node} {pre : String}
    (hpop : u.getLast? = some (node_id, node, pre))
    (hinv : PfrInv adjacencies root_id u tree) :
    PfrInv adjacencies root_id
      (u.dropLast ++ pfr_step_children adjacencies node (pre ++ node.name))
      (aupdate tree node_id (pre ++ node.name)) ∧
    node_id ∉ akeys tree := by
  obtain ⟨hGnd, hGcon⟩ := hG
  obtain ⟨hdecomp, hmem⟩ := pop_decomp hpop
  obtain ⟨hnd, htree, hitems, hclosed, hparents⟩ := hinv
  obtain ⟨hlook, ns, hns, hpath⟩ := hitems _ hmem
  have hUIds : UIds u = UIds u.dropLast ++ [node_id] := by
    conv_lhs => rw [← hdecomp]
    rw [UIds_append]
    rfl
  have hid_in_u : node_id ∈ UIds u := mem_UIds hmem
  have hnd2 : (akeys tree ++ (UIds u.dropLast ++ [node_id])).Nodup := by
    rw [← hUIds]
    exact hnd
  obtain ⟨hndtree, hndu2, hdisj2⟩ := List.nodup_append.mp hnd2
  obtain ⟨hnddl, _, hdisj3⟩ := List.nodup_append.mp hndu2
  have hid_not_dl : node_id ∉ UIds u.dropLast := by
    intro hc
    exact hdisj3 hc (List.mem_singleton.mpr rfl)
  have hid_not_tree : node_id ∉ akeys tree := by
    intro hc
    exact hdisj2 hc (List.mem_append_right _ (List.mem_singleton.mpr rfl))
  have htree2 : aupdate tree node_id (pre ++ node.name) =
      tree ++ [(node_id, pre ++ node.name)] :=
    aupdate_eq_append _ hid_not_tree
  have htree2keys : akeys (aupdate tree node_id (pre ++ node.name)) =
      akeys tree ++ [node_id] := by
    rw [htree2, akeys_append]
    rfl
  have hkid_mem : ∀ c, c ∈ UIds (pfr_step_children adjacencies node (pre ++ node.name)) ↔
      ∃ cnd, alookup adjacencies c = some cnd ∧ cnd.parent = node_id := by
    intro c
    rw [UIds_children]
    constructor
    · intro hc
      obtain ⟨kv, hkv, heq⟩ := List.mem_map.mp hc
      obtain ⟨hkvadj, hkvpred⟩ := List.mem_filter.mp hkv
      have hckv : alookup adjacencies kv.1 = some kv.2 :=
        alookup_of_mem_nodup hGnd hkvadj
      have hcin : kv.1 ∈ node.children := (contains_iff_mem _ _).mp hkvpred
      have hcp := (hGcon node_id node kv.1 kv.2 hlook hckv).mp hcin
      exact heq ▸ ⟨kv.2, hckv, hcp⟩
    · rintro ⟨cnd, hcnd, hcp⟩
      have hmemf : (c, cnd) ∈ adjacencies.filter (fun kv => node.children.contains kv.1) :=
        List.mem_filter.mpr ⟨alookup_some_mem hcnd,
          (contains_iff_mem _ _).mpr ((hGcon node_id node c cnd hlook hcnd).mpr hcp)⟩
      exact mem_akeys_of_mem hmemf
  have hid_ne_root : node_id ≠ root_id := by
    intro hc
    rw [hc, hroot] at hlook
    exact absurd hlook (by simp)
  have hkid_fresh : ∀ c ∈ UIds (pfr_step_children adjacencies node (pre ++ node.name)),
      c ∉ akeys tree ++ UIds u := by
    intro c hc hcontra
    obtain ⟨cnd, hcnd, hcp⟩ := (hkid_mem c).mp hc
    obtain ⟨knd, hknd, hkor⟩ := hparents c hcontra
    have hknd2 : knd = cnd := by
      rw [hcnd] at hknd
      exact (Option.some.inj hknd).symm
    rw [hknd2, hcp] at hkor
    rcases hkor with h | h
    · exact hid_ne_root h
    · exact hid_not_tree h
  have hkid_ne_id : ∀ c ∈ UIds (pfr_step_children adjacencies node (pre ++ node.name)),
      c ≠ node_id := by
    intro c hc hceq
    obtain ⟨cnd, hcnd, hcp⟩ := (hkid_mem c).mp hc
    subst hceq
    have hcn : cnd = node := Option.some.inj (hcnd.symm.trans hlook)
    rw [hcn] at hcp
    have hnone := find_root_self_parent hlook hcp (adjacencies.length + 1)
    have hsome := hacyc (c, node) (alookup_some_mem hlook)
    rw [hnone] at hsome
    simp at hsome
  have hkids_nodup : (UIds (pfr_step_children adjacencies node (pre ++ node.name))).Nodup := by
    rw [UIds_children]
    exact List.Nodup.sublist (List.Sublist.map _ (List.filter_sublist _)) hGnd
  -- chain facts used for the children's path coherence
  have hfr_id1 : find_root adjacencies (adjacencies.length + 1 + 1) node_id = some root_id :=
    ancestorNames_find_root hroot hns
  have hfr_idN : find_root adjacencies (adjacencies.length + 1) node_id = some root_id := by
    have hs := hacyc (node_id, node) (alookup_some_mem hlook)
    cases hfr : find_root adjacencies (adjacencies.length + 1) node_id with
    | none => rw [hfr] at hs; simp at hs
    | some r =>
      have hmono := find_root_mono hfr
      rw [hfr_id1] at hmono
      rw [Option.some.inj hmono]
  refine ⟨⟨?_, ?_, ?_, ?_, ?_⟩, hid_not_tree⟩
  · -- distinctness of tree keys and scheduled ids
    rw [htree2keys, UIds_append]
    rw [List.nodup_append]
    refine ⟨?_, ?_, ?_⟩
    · rw [List.nodup_append]
      refine ⟨hndtree, by simp, ?_⟩
      intro a ha
      rw [List.mem_singleton]
      intro hc
      exact hid_not_tree (hc ▸ ha)
    · rw [List.nodup_append]
      refine ⟨hnddl, hkids_nodup, ?_⟩
      intro a ha hc
      exact hkid_fresh a hc
        (List.mem_append_right _ (by rw [hUIds]; exact List.mem_append_left _ ha))
    · intro a ha hc
      rcases List.mem_append.mp ha with ha | ha
      · rcases List.mem_append.mp hc with hc | hc
        · exact hdisj2 ha (List.mem_append_left _ hc)
        · exact hkid_fresh a hc (List.mem_append_left _ ha)
      · rw [List.mem_singleton] at ha
        subst ha
        rcases List.mem_append.mp hc with hc | hc
        · exact hid_not_dl hc
        · exact hkid_ne_id a hc rfl
  · -- TreeOK for the grown tree
    intro k p hkp
    rw [htree2] at hkp
    rcases alookup_append_one hkp with h | ⟨_, hkid0, hpv⟩
    · exact htree k p h
    · subst hkid0
      subst hpv
      exact ⟨node, ns, hlook, hns, hpath⟩
  · -- every scheduled item is coherent
    intro it2 hit2
    rcases List.mem_append.mp hit2 with hdl | hkid
    · exact hitems it2 ((List.dropLast_sublist u).subset hdl)
    · obtain ⟨kv, hkv, heq⟩ := List.mem_map.mp hkid
      obtain ⟨hkvadj, hkvpred⟩ := List.mem_filter.mp hkv
      have hckv : alookup adjacencies kv.1 = some kv.2 :=
        alookup_of_mem_nodup hGnd hkvadj
      have hcin : kv.1 ∈ node.children := (contains_iff_mem _ _).mp hkvpred
      have hcp := (hGcon node_id node kv.1 kv.2 hlook hckv).mp hcin
      have hfr_c1 : find_root adjacencies (adjacencies.length + 1 + 1) kv.1 = some root_id := by
        rw [find_root_succ_some (adjacencies.length + 1) hckv, hcp]
        exact hfr_idN
      have hfr_cN : find_root adjacencies (adjacencies.length + 1) kv.1 = some root_id := by
        have hs := hacyc kv hkvadj
        cases hfr : find_root adjacencies (adjacencies.length + 1) kv.1 with
        | none => rw [hfr] at hs; simp at hs
        | some r =>
          have hmono := find_root_mono hfr
          rw [hfr_c1] at hmono
          rw [Option.some.inj hmono]
      have hans_c := find_root_ancestorNames hroot hfr_cN hckv
      have hcp_ne_root : kv.2.parent ≠ root_id := by
        rw [hcp]
        exact hid_ne_root
      have hunf : ancestorNames adjacencies root_id (adjacencies.length + 1) kv.1 =
          (ancestorNames adjacencies root_id adjacencies.length kv.2.parent).map
            (fun ns2 => ns2 ++ [kv.2.name]) := by
        rw [ancestorNames_succ_some adjacencies.length hckv, if_neg hcp_ne_root]
      cases hin : ancestorNames adjacencies root_id adjacencies.length kv.2.parent with
      | none =>
        rw [hunf, hin] at hans_c
        simp at hans_c
      | some ns0 =>
        have hin2 : ancestorNames adjacencies root_id (adjacencies.length + 1) kv.2.parent =
            some ns0 := ancestorNames_mono hin
        rw [hcp, hns] at hin2
        have hns0 : ns0 = ns := (Option.some.inj hin2).symm
        subst hns0
        rw [← heq]
        refine ⟨hckv, ns0 ++ [kv.2.name], ?_, ?_⟩
        · rw [hunf, hin]
          rfl
        · show (pre ++ node.name ++ "/") ++ kv.2.name = _
          rw [joinPath_append _ _ (ancestorNames_ne_nil hns), ← hpath]
  · -- closure: nothing reachable is forgotten
    intro k knd hk hor
    simp only [htree2keys, UIds_append, List.mem_append, List.mem_singleton] at hor ⊢
    rcases hor with hpr | hpt
    · rcases hclosed k knd hk (Or.inl hpr) with h | h
      · exact Or.inl (Or.inl h)
      · rw [hUIds, List.mem_append, List.mem_singleton] at h
        rcases h with h | h
        · exact Or.inr (Or.inl h)
        · exact Or.inl (Or.inr h)
    · rcases hpt with h | h
      · rcases hclosed k knd hk (Or.inr h) with h2 | h2
        · exact Or.inl (Or.inl h2)
        · rw [hUIds, List.mem_append, List.mem_singleton] at h2
          rcases h2 with h2 | h2
          · exact Or.inr (Or.inl h2)
          · exact Or.inl (Or.inr h2)
      · exact Or.inr (Or.inr ((hkid_mem k).mpr ⟨knd, hk, h⟩))
  · -- every recorded or scheduled id hangs from root or the tree
    intro k hk
    rw [htree2keys, UIds_append] at hk
    have hlift : ∀ knd2 : Node, knd2.parent = root_id ∨ knd2.parent ∈ akeys tree →
        knd2.parent = root_id ∨ knd2.parent ∈ akeys (aupdate tree node_id (pre ++ node.name)) := by
      intro knd2 hor
      rcases hor with h | h
      · exact Or.inl h
      · rw [htree2keys]
        exact Or.inr (List.mem_append_left _ h)
    rcases List.mem_append.mp hk with hkt | hku
    · rcases List.mem_append.mp hkt with hkt | hkt
      · obtain ⟨knd, h1, h2⟩ := hparents k (List.mem_append_left _ hkt)
        exact ⟨knd, h1, hlift knd h2⟩
      · rw [List.mem_singleton] at hkt
        subst hkt
        obtain ⟨knd, h1, h2⟩ := hparents k (List.mem_append_right _ hid_in_u)
        exact ⟨knd, h1, hlift knd h2⟩
    · rcases List.mem_append.mp hku with hku | hku
      · obtain ⟨knd, h1, h2⟩ := hparents k
          (List.mem_append_right _ (by rw [hUIds]; exact List.mem_append_left _ hku))
        exact ⟨knd, h1, hlift knd h2⟩
      · obtain ⟨cnd, hcnd, hcp⟩ := (hkid_mem k).mp hku
        refine ⟨cnd, hcnd, Or.inr ?_⟩
        rw [htree2keys, hcp]
        exact List.mem_append_right _ (List.mem_singleton.mpr rfl)

/-- the worklist loop of paths_from_root finishes within the fuel budget and
its result satisfies the tree invariant plus downward closure. -/
lemma pfr_loop_spec {adjacencies : Adj} {root_id : String}
    (hG : GoodAdj adjacencies) (hroot : alookup adjacencies root_id = none)
    (hacyc : Acyc adjacencies) :
    ∀ (fuel : Nat) (u : List WItem) (tree : Tree), PfrInv adjacencies root_id u tree →
      adjacencies.length + 1 ≤ fuel + tree.length →
      ∃ tfin, pfr_loop adjacencies fuel u tree = some tfin ∧
        TreeOK adjacencies root_id tfin ∧ (akeys tfin).Nodup ∧
        (∀ k knd, alookup adjacencies k = some knd →
          (knd.parent = root_id ∨ knd.parent ∈ akeys tfin) → k ∈ akeys tfin) := by
  intro fuel
  induction fuel with
  | zero =>
    intro u tree hinv hbound
    exfalso
    have hndt : (akeys tree).Nodup := (List.nodup_append.mp hinv.1).1
    have hsub : ∀ k ∈ akeys tree, k ∈ akeys adjacencies := by
      intro k hk
      exact (alookup_isSome_iff_mem _ _).mp (treeOK_keys_isSome hinv.2.1 k hk)
    have hlen := length_le_of_keys hndt hsub
    omega
  | succ f ih =>
    intro u tree hinv hbound
    cases hpop : u.getLast? with
    | none =>
      refine ⟨tree, pfr_loop_succ_none f hpop, hinv.2.1,
        (List.nodup_append.mp hinv.1).1, ?_⟩
      intro k knd hk hor
      rcases hinv.2.2.2.1 k knd hk hor with h | h
      · exact h
      · have hu : u = [] := by
          cases u with
          | nil => rfl
          | cons a as => simp [List.getLast?_cons] at hpop
        rw [hu] at h
        simp [UIds] at h
    | some it =>
      obtain ⟨node_id, node, pre⟩ := it
      obtain ⟨hinv2, hfresh⟩ := pfr_step_inv hG hroot hacyc hpop hinv
      have htree2len : (aupdate tree node_id (pre ++ node.name)).length = tree.length + 1 := by
        rw [aupdate_eq_append _ hfresh]
        simp
      rw [pfr_loop_succ_some f hpop]
      apply ih _ _ hinv2
      rw [htree2len]
      omega

/-- the worklist of paths_from_root starts in the invariant. -/
lemma pfr_init_inv {adjacencies : Adj} {root_id : String}
    (hG : GoodAdj adjacencies) :
    PfrInv adjacencies root_id
      ((adjacencies.filter (fun kv => kv.2.parent == root_id)).map
        (fun kv => (kv.1, kv.2, emptyStr)))
      [] := by
  obtain ⟨hGnd, hGcon⟩ := hG
  have hids : UIds ((adjacencies.filter (fun kv => kv.2.parent == root_id)).map
      (fun kv => (kv.1, kv.2, emptyStr))) =
      akeys (adjacencies.filter (fun kv => kv.2.parent == root_id)) := by
    simp [UIds, akeys, List.map_map]
  refine ⟨?_, ?_, ?_, ?_, ?_⟩
  · show (akeys ([] : Tree) ++ _).Nodup
    rw [show akeys ([] : Tree) = [] from rfl, List.nil_append, hids]
    exact List.Nodup.sublist (List.Sublist.map _ (List.filter_sublist _)) hGnd
  · intro k p hkp
    simp [alookup] at hkp
  · intro it hit
    obtain ⟨kv, hkv, heq⟩ := List.mem_map.mp hit
    obtain ⟨hkvadj, hpred⟩ := List.mem_filter.mp hkv
    have hlook : alookup adjacencies kv.1 = some kv.2 := alookup_of_mem_nodup hGnd hkvadj
    have hpar : kv.2.parent = root_id := by simpa using hpred
    have hans : ancestorNames adjacencies root_id (adjacencies.length + 1) kv.1 =
        some [kv.2.name] := by
      rw [ancestorNames_succ_some adjacencies.length hlook, if_pos hpar]
    rw [← heq]
    exact ⟨hlook, [kv.2.name], hans, rfl⟩
  · intro k knd hk hor
    rcases hor with h | h
    · exact Or.inr (by
        rw [hids]
        exact mem_akeys_of_mem (List.mem_filter.mpr ⟨alookup_some_mem hk, by simp [h]⟩))
    · simp [akeys] at h
  · intro k hk
    rw [show akeys ([] : Tree) = [] from rfl, List.nil_append, hids] at hk
    obtain ⟨kv, hkv, heq⟩ := List.mem_map.mp hk
    obtain ⟨hkvadj, hpred⟩ := List.mem_filter.mp hkv
    have hlook := alookup_of_mem_nodup hGnd hkvadj
    exact ⟨kv.2, heq ▸ hlook, Or.inl (by simpa using hpred)⟩

/-- every id with a full ancestor chain ends up in a downward-closed tree. -/
lemma pfr_complete {adjacencies : Adj} {root_id : String} {tfin : Tree}
    (hclosed : ∀ k knd, alookup adjacencies k = some knd →
      (knd.parent = root_id ∨ knd.parent ∈ akeys tfin) → k ∈ akeys tfin) :
    ∀ (f : Nat) (k : String) (ns : List String),
      ancestorNames adjacencies root_id f k = some ns → k ∈ akeys tfin := by
  intro f
  induction f with
  | zero =>
    intro k ns h
    simp [ancestorNames] at h
  | succ n ih =>
    intro k ns h
    cases hl : alookup adjacencies k with
    | none =>
      rw [ancestorNames_succ_none n hl] at h
      simp at h
    | some nd =>
      rw [ancestorNames_succ_some n hl] at h
      by_cases hp : nd.parent = root_id
      · exact hclosed k nd hl (Or.inl hp)
      · rw [if_neg hp] at h
        cases hin : ancestorNames adjacencies root_id n nd.parent with
        | none =>
          rw [hin] at h
          simp at h
        | some ns2 =>
          exact hclosed k nd hl (Or.inr (ih nd.parent ns2 hin))

/-- full characterization of paths_from_root on a well-formed acyclic
adjacency map: it terminates within length + 1 fuel, its keys are exactly
the ids whose parent walk ends at the given root, its keys are distinct, and
every recorded path is the joined ancestor-name sequence. -/
lemma paths_from_root_spec {adjacencies : Adj} {root_id : String}
    (hG : GoodAdj adjacencies) (hroot : alookup adjacencies root_id = none)
    (hacyc : Acyc adjacencies) :
    ∃ tfin, paths_from_root adjacencies root_id (adjacencies.length + 1) = some tfin ∧
      TreeOK adjacencies root_id tfin ∧ (akeys tfin).Nodup ∧
      (∀ k, k ∈ akeys tfin ↔ ((alookup adjacencies k).isSome ∧
        find_root adjacencies (adjacencies.length + 1) k = some root_id)) := by
  obtain ⟨tfin, hrun, htok, hndk, hclosed⟩ :=
    pfr_loop_spec hG hroot hacyc (adjacencies.length + 1) _ [] (pfr_init_inv hG)
      (by simp)
  refine ⟨tfin, hrun, htok, hndk, ?_⟩
  intro k
  constructor
  · intro hk
    have hs := (alookup_isSome_iff_mem tfin k).mpr hk
    cases hl : alookup tfin k with
    | none =>
      rw [hl] at hs
      simp at hs
    | some p =>
      obtain ⟨nd, ns, hnd, hns, _⟩ := htok k p hl
      refine ⟨by rw [hnd]; rfl, ?_⟩
      have h1 := ancestorNames_find_root hroot hns
      have hs2 := hacyc (k, nd) (alookup_some_mem hnd)
      cases hfr : find_root adjacencies (adjacencies.length + 1) k with
      | none =>
        rw [hfr] at hs2
        simp at hs2
      | some r =>
        have hmono := find_root_mono hfr
        rw [h1] at hmono
        rw [Option.some.inj hmono]
  · rintro ⟨hs, hfr⟩
    cases hl : alookup adjacencies k with
    | none =>
      rw [hl] at hs
      simp at hs
    | some knd =>
      have hans := find_root_ancestorNames hroot hfr hl
      cases hin : ancestorNames adjacencies root_id (adjacencies.length + 1) k with
      | none =>
        rw [hin] at hans
        simp at hans
      | some ns =>
        exact pfr_complete hclosed _ k ns hin

/-! Lemmas for segment_trees. -/

lemma seg_loop_succ_step {adjacencies : Adj} {pick : List String → String}
    {unrooted : List String} {segments : Forest} {root : String} {tree : Tree} (f : Nat)
    (hne : unrooted.isEmpty = false)
    (hfr : find_root adjacencies (adjacencies.length + 1) (pick unrooted) = some root)
    (hpfr : paths_from_root adjacencies root (adjacencies.length + 1) = some tree) :
    segment_trees_loop adjacencies pick (f + 1) unrooted segments =
      segment_trees_loop adjacencies pick f (prune_unrooted unrooted tree)
        (aupdate segments root tree) := by
  rw [segment_trees_loop]
  rw [if_neg (by simp [hne])]
  rw [hfr]
  show (match paths_from_root adjacencies root (adjacencies.length + 1) with
    | none => none
    | some tree =>
      segment_trees_loop adjacencies pick f (prune_unrooted unrooted tree)
        (aupdate segments root tree)) = _
  rw [hpfr]

lemma filter_length_lt {l : List String} {a : String} {p : String → Bool}
    (ha : a ∈ l) (hpa : p a = false) : (l.filter p).length < l.length :=
  List.length_filter_lt_length_iff_exists.mpr ⟨a, ha, by simp [hpa]⟩

lemma mem_prune {unrooted : List String} {tree : Tree} {k : String} :
    k ∈ prune_unrooted unrooted tree ↔ k ∈ unrooted ∧ k ∉ akeys tree := by
  rw [prune_unrooted, List.mem_filter]
  simp only [Bool.not_eq_true']
  constructor
  · rintro ⟨h1, h2⟩
    refine ⟨h1, fun hc => ?_⟩
    exact Bool.false_ne_true (h2 ▸ (any_akeys tree k).mpr hc)
  · rintro ⟨h1, h2⟩
    refine ⟨h1, ?_⟩
    cases hany : tree.any (fun kv => kv.1 == k) with
    | false => rfl
    | true => exact absurd ((any_akeys tree k).mp hany) h2

/-- the while-loop of segment_trees finishes within the fuel budget on
well-formed acyclic input, whatever the pick function draws, and its result
is a forest of disjoint root-characterized trees covering every key. -/
lemma seg_loop_spec {adjacencies : Adj} {pick : List String → String}
    (hG : GoodAdj adjacencies) (hacyc : Acyc adjacencies)
    (hpick : ∀ u, u ≠ [] → pick u ∈ u) :
    ∀ (fuel : Nat) (unrooted : List String) (segments : Forest),
      SegInv adjacencies unrooted segments → unrooted.length < fuel →
      ∃ segs, segment_trees_loop adjacencies pick fuel unrooted segments = some segs ∧
        (akeys segs).Nodup ∧
        (∀ rt ∈ segs, alookup adjacencies rt.1 = none ∧
          (∀ k, k ∈ akeys rt.2 ↔ ((alookup adjacencies k).isSome ∧
            find_root adjacencies (adjacencies.length + 1) k = some rt.1)) ∧
          TreeOK adjacencies rt.1 rt.2) ∧
        (∀ k, (alookup adjacencies k).isSome → ∃ rt ∈ segs, k ∈ akeys rt.2) := by
  intro fuel
  induction fuel with
  | zero =>
    intro u s hinv hb
    omega
  | succ f ih =>
    intro unrooted segments hinv hb
    obtain ⟨hndu, hukeys, hnds, hsegs, hcover, hnocover⟩ := hinv
    by_cases hemp : unrooted.isEmpty = true
    · have hue : unrooted = [] := List.isEmpty_iff.mp hemp
      refine ⟨segments, ?_, hnds, hsegs, ?_⟩
      · rw [segment_trees_loop, if_pos hemp]
      · intro k hk
        rcases hcover k hk with h | h
        · rw [hue] at h
          simp at h
        · exact h
    · have hemp2 : unrooted.isEmpty = false := by
        cases he : unrooted.isEmpty with
        | false => rfl
        | true => exact absurd he hemp
      have hne : unrooted ≠ [] := by
        intro hc
        rw [hc] at hemp2
        simp at hemp2
      have hpmem := hpick unrooted hne
      have hpksome : (alookup adjacencies (pick unrooted)).isSome := hukeys _ hpmem
      have hfrs : (find_root adjacencies (adjacencies.length + 1) (pick unrooted)).isSome := by
        cases hl : alookup adjacencies (pick unrooted) with
        | none =>
          rw [hl] at hpksome
          simp at hpksome
        | some nd => exact hacyc (pick unrooted, nd) (alookup_some_mem hl)
      cases hfr : find_root adjacencies (adjacencies.length + 1) (pick unrooted) with
      | none =>
        rw [hfr] at hfrs
        simp at hfrs
      | some root =>
        have hrootl : alookup adjacencies root = none := find_root_root_lookup hfr
        obtain ⟨tree, hpfr, htok, hndk, hkiff⟩ := paths_from_root_spec hG hrootl hacyc
        have hpick_in_tree : pick unrooted ∈ akeys tree := (hkiff _).mpr ⟨hpksome, hfr⟩
        have hroot_fresh : root ∉ akeys segments := by
          intro hc
          obtain ⟨rt, hrt, hrteq⟩ := List.mem_map.mp hc
          obtain ⟨_, hrtiff, _⟩ := hsegs rt hrt
          have hin : pick unrooted ∈ akeys rt.2 :=
            (hrtiff _).mpr ⟨hpksome, by rw [hrteq]; exact hfr⟩
          exact hnocover _ hpmem ⟨rt, hrt, hin⟩
        have hsupd : aupdate segments root tree = segments ++ [(root, tree)] :=
          aupdate_eq_append _ hroot_fresh
        have hskeys : akeys (aupdate segments root tree) = akeys segments ++ [root] := by
          rw [hsupd, akeys_append]
          rfl
        rw [seg_loop_succ_step f hemp2 hfr hpfr]
        have hdec : (prune_unrooted unrooted tree).length < unrooted.length := by
          apply filter_length_lt hpmem
          simp [(any_akeys tree (pick unrooted)).mpr hpick_in_tree]
        apply ih
        · refine ⟨List.Nodup.filter _ hndu, ?_, ?_, ?_, ?_, ?_⟩
          · intro k hk
            exact hukeys k (mem_prune.mp hk).1
          · rw [hskeys, List.nodup_append]
            refine ⟨hnds, by simp, ?_⟩
            intro a ha
            rw [List.mem_singleton]
            intro hc
            exact hroot_fresh (hc ▸ ha)
          · intro rt hrt
            rw [hsupd] at hrt
            rcases List.mem_append.mp hrt with h | h
            · exact hsegs rt h
            · rw [List.mem_singleton] at h
              subst h
              exact ⟨hrootl, hkiff, htok⟩
          · intro k hk
            rcases hcover k hk with h | h
            · by_cases hkt : k ∈ akeys tree
              · refine Or.inr ⟨(root, tree), ?_, hkt⟩
                rw [hsupd]
                exact List.mem_append_right _ (List.mem_singleton.mpr rfl)
              · exact Or.inl (mem_prune.mpr ⟨h, hkt⟩)
            · obtain ⟨rt, hrt, hm⟩ := h
              refine Or.inr ⟨rt, ?_, hm⟩
              rw [hsupd]
              exact List.mem_append_left _ hrt
          · intro k hk hcontra
            obtain ⟨hku, hknt⟩ := mem_prune.mp hk
            obtain ⟨rt, hrt, hm⟩ := hcontra
            rw [hsupd] at hrt
            rcases List.mem_append.mp hrt with h | h
            · exact hnocover k hku ⟨rt, h, hm⟩
            · rw [List.mem_singleton] at h
              subst h
              exact hknt hm
        · omega

/-- C4: on every well-formed acyclic folder set and every possible sequence
of seed draws, segment_trees terminates and partitions the folder id set
exactly: every folder id lies in some tree, trees under distinct roots are
disjoint, the recorded roots are distinct, and trees hold only folder ids. -/
theorem C4_segment_trees_partition (directories : List FolderRec)
    (pick : List String → String)
    (hnd : (directories.map (fun d => d.id)).Nodup)
    (hacyc : Acyc (make_drive_adjacency_list directories))
    (hpick : ∀ u, u ≠ [] → pick u ∈ u) :
    ∃ segs, segment_trees (make_drive_adjacency_list directories) pick = some segs ∧
      (∀ k, (alookup (make_drive_adjacency_list directories) k).isSome →
        ∃ rt ∈ segs, k ∈ akeys rt.2) ∧
      (∀ rt1 rt2, rt1 ∈ segs → rt2 ∈ segs → rt1.1 ≠ rt2.1 →
        ∀ k, k ∈ akeys rt1.2 → k ∉ akeys rt2.2) ∧
      (akeys segs).Nodup ∧
      (∀ rt ∈ segs, ∀ k, k ∈ akeys rt.2 →
        (alookup (make_drive_adjacency_list directories) k).isSome) := by
  have hG := goodAdj_make directories hnd
  have hinit : SegInv (make_drive_adjacency_list directories)
      (akeys (make_drive_adjacency_list directories)) [] := by
    refine ⟨hG.1, ?_, by simp [akeys], by simp, ?_, ?_⟩
    · intro k hk
      exact (alookup_isSome_iff_mem _ _).mpr hk
    · intro k hk
      exact Or.inl ((alookup_isSome_iff_mem _ _).mp hk)
    · rintro k _ ⟨rt, hrt, _⟩
      simp at hrt
  have hlen : (akeys (make_drive_adjacency_list directories)).length <
      (make_drive_adjacency_list directories).length + 1 := by
    simp [akeys]
  obtain ⟨segs, hrun, hnds, hsegs, hcover⟩ :=
    seg_loop_spec hG hacyc hpick ((make_drive_adjacency_list directories).length + 1)
      (akeys (make_drive_adjacency_list directories)) [] hinit hlen
  refine ⟨segs, hrun, hcover, ?_, hnds, ?_⟩
  · intro rt1 rt2 h1 h2 hne k hk1 hk2
    obtain ⟨_, hiff1, _⟩ := hsegs rt1 h1
    obtain ⟨_, hiff2, _⟩ := hsegs rt2 h2
    have e1 := ((hiff1 k).mp hk1).2
    have e2 := ((hiff2 k).mp hk2).2
    exact hne (Option.some.inj (e1.symm.trans e2))
  · intro rt hrt k hk
    obtain ⟨_, hiff, _⟩ := hsegs rt hrt
    exact ((hiff k).mp hk).1

/-- the first-element pick really picks an element. -/
lemma pick_first_mem : ∀ (u : List String), u ≠ [] → pick_first u ∈ u := by
  intro u hu
  cases u with
  | nil => exact absurd rfl hu
  | cons a l => exact List.mem_cons_self a l

/-- witness for C4: the two-folder chain under the first-element draw. -/
theorem C4_segment_trees_partition_witness :
    (dirsChain.map (fun d => d.id)).Nodup ∧
    Acyc (make_drive_adjacency_list dirsChain) ∧
    (∃ segs, segment_trees (make_drive_adjacency_list dirsChain) pick_first = some segs ∧
      (∀ k, (alookup (make_drive_adjacency_list dirsChain) k).isSome →
        ∃ rt ∈ segs, k ∈ akeys rt.2) ∧
      (∀ rt1 rt2, rt1 ∈ segs → rt2 ∈ segs → rt1.1 ≠ rt2.1 →
        ∀ k, k ∈ akeys rt1.2 → k ∉ akeys rt2.2) ∧
      (akeys segs).Nodup ∧
      (∀ rt ∈ segs, ∀ k, k ∈ akeys rt.2 →
        (alookup (make_drive_adjacency_list dirsChain) k).isSome)) :=
  ⟨by decide, by decide,
   C4_segment_trees_partition dirsChain pick_first (by decide) (by decide) pick_first_mem⟩

/-- C6: on a well-formed acyclic adjacency map with an external root, every
path recorded by paths_from_root equals the slash-joined sequence of
ancestor display names from the root down to the node, and a direct child
of the root gets exactly its own name (empty parent path, no trailing
separator anywhere). -/
theorem C6_paths_join_ancestor_names (adjacencies : Adj) (root_id k p : String)
    (tree : Tree) (hG : GoodAdj adjacencies)
    (hroot : alookup adjacencies root_id = none)
    (hacyc : Acyc adjacencies)
    (hrun : paths_from_root adjacencies root_id (adjacencies.length + 1) = some tree)
    (hk : alookup tree k = some p) :
    ∃ nd ns, alookup adjacencies k = some nd ∧
      ancestorNames adjacencies root_id (adjacencies.length + 1) k = some ns ∧
      p = joinPath ns ∧ (nd.parent = root_id → p = nd.name) := by
  obtain ⟨tfin, hrun2, htok, _, _⟩ := paths_from_root_spec hG hroot hacyc
  have htt : tree = tfin := by
    rw [hrun] at hrun2
    exact Option.some.inj hrun2
  subst htt
  obtain ⟨nd, ns, hnd, hns, hp⟩ := htok k p hk
  refine ⟨nd, ns, hnd, hns, hp, ?_⟩
  intro hpar
  have hans : ancestorNames adjacencies root_id (adjacencies.length + 1) k =
      some [nd.name] := by
    rw [ancestorNames_succ_some adjacencies.length hnd, if_pos hpar]
  rw [hns] at hans
  rw [hp, Option.some.inj hans]
  rfl

/-- witness for C6: folder b nested in folder a receives the joined path. -/
theorem C6_paths_join_ancestor_names_witness :
    ∃ nd ns, alookup (make_drive_adjacency_list dirsChain) idB = some nd ∧
      ancestorNames (make_drive_adjacency_list dirsChain) rootOne
        ((make_drive_adjacency_list dirsChain).length + 1) idB = some ns ∧
      pathFAFB = joinPath ns ∧ (nd.parent = rootOne → pathFAFB = nd.name) :=
  C6_paths_join_ancestor_names (make_drive_adjacency_list dirsChain) rootOne idB pathFAFB
    treeChainExpected (goodAdj_make dirsChain (by decide)) (by decide) (by decide)
    (by decide) (by decide)

/-- C1: the spec says a path produced by two or more ids is excluded from the
authoritative path → id mapping and that no id of a collision set resolves
that path.  The code keeps the colliding path in the main mapping, resolved
to the last id, which is itself a member of the collision set: on the tree
a → x, b → x the returned namespace still maps x to b while the collisions
mapping holds x → {b, a}. -/
theorem C1_flip_keeps_colliding_path :
    (flip_path_tree treeCollide).1 = [(nameX, idB)] ∧
    alookup (flip_path_tree treeCollide).2 nameX = some [idB, idA] ∧
    alookup (flip_path_tree treeCollide).1 nameX = some idB := by
  decide

/-- on the two-cycle a ↔ b the walk is still running at every fuel, from
either entry point. -/
lemma find_root_cyc_aux : ∀ fuel,
    find_root adjCyc fuel idA = none ∧ find_root adjCyc fuel idB = none := by
  intro fuel
  induction fuel with
  | zero => exact ⟨rfl, rfl⟩
  | succ n ih =>
    have ha : alookup adjCyc idA = some ⟨nameFA, [idB], idB⟩ := by decide
    have hb : alookup adjCyc idB = some ⟨nameFB, [idA], idA⟩ := by decide
    constructor
    · show find_root adjCyc (n + 1) idA = none
      simp only [find_root, ha]
      exact ih.2
    · show find_root adjCyc (n + 1) idB = none
      simp only [find_root, hb]
      exact ih.1

/-- C2: the spec requires find_root to maintain a visited set and fail with
CycleDetected on revisits.  The code walks parent pointers with no cycle
protection: on the parent chain a → b → a the while-loop never terminates,
modelled here by the fuelled walk returning none at every fuel. -/
theorem C2_find_root_diverges_on_cycle (fuel : Nat) :
    find_root adjCyc fuel idA = none :=
  (find_root_cyc_aux fuel).1

/-- C3: the spec requires deterministic root selection (lexicographically
smallest unvisited id), making the pipeline output independent of the run.
The code draws the seed with random.choice; two draw orders over the same
catalog of two disconnected folders give the pipeline two different outputs,
because the tree built first becomes the default root of
extract_filesystem. -/
theorem C3_pipeline_depends_on_pick :
    extract_filesystem dirsTwoRoots [] pick_first ≠
      extract_filesystem dirsTwoRoots [] pick_last := by
  decide

/-- C5: the spec requires a file whose parent lies in no tree to be reported
as an UnassignedFile diagnostic.  The code's groupby silently drops the
none-membership group: attaching such a file returns the segments unchanged,
with no diagnostic of any kind, and the file's id reaches no tree and no
namespace. -/
theorem C5_unassigned_file_silently_dropped :
    pick_disjoint_set fileMissing.parents (get_segment_ids segsOne) = none ∧
    add_files_to_segmented_trees segsOne [fileMissing] = segsOne ∧
    (∀ rt ∈ add_files_to_segmented_trees segsOne [fileMissing],
      alookup rt.2 fileMissing.id = none) ∧
    (∀ kv ∈ (flip_path_tree [(idA, nameFA)]).1, kv.2 ≠ fileMissing.id) := by
  decide

/-- C7: advancing a completed scanner fails with the typed already-complete
error (the StopIteration of __next__) and produces no new state, and an
advance on an uncompleted scanner appends exactly the fetched page's records
and sets completion exactly when the page carries no continuation token. -/
theorem C7_scanner_next_contract {α : Type} (fetch : Option String → DrivePage α)
    (s : ScannerState α) :
    (s.complete = true → scanner_next fetch s = Except.error ScanFailure.alreadyComplete) ∧
    (s.complete = false →
      ∃ s2 recs, scanner_next fetch s = Except.ok (s2, recs) ∧
        s2.results = s.results ++ (fetch s.page_token).files ∧
        recs = (fetch s.page_token).files ∧
        (s2.complete = true ↔ (fetch s.page_token).nextPageToken = none)) := by
  constructor
  · intro h
    simp [scanner_next, h]
  · intro h
    refine ⟨⟨s.results ++ (fetch s.page_token).files, (fetch s.page_token).nextPageToken,
      s.page_counter + 1, true, (fetch s.page_token).nextPageToken.isNone⟩,
      (fetch s.page_token).files, ?_, rfl, rfl, ?_⟩
    · simp [scanner_next, h]
    · exact Option.isNone_iff_eq_none

/-- witness for C7: both branches of the contract at concrete states. -/
theorem C7_scanner_next_contract_witness :
    scanner_next fetchNone scDone = Except.error ScanFailure.alreadyComplete ∧
    (∃ s2 recs, scanner_next fetchNone scFresh = Except.ok (s2, recs) ∧
      s2.results = scFresh.results ++ (fetchNone scFresh.page_token).files ∧
      recs = (fetchNone scFresh.page_token).files ∧
      (s2.complete = true ↔ (fetchNone scFresh.page_token).nextPageToken = none)) :=
  ⟨(C7_scanner_next_contract fetchNone scDone).1 rfl,
   (C7_scanner_next_contract fetchNone scFresh).2 rfl⟩

/-- C8: make_manifest partitions the records that carry parent information
into folders and non-folders, but a record with no parents value is dropped
by dropna with no diagnostic count reported anywhere: on a batch holding a
folder, a file and a parentless record, the returned pair holds exactly the
first two and nothing mentions the third. -/
theorem C8_make_manifest_partition_no_count :
    make_manifest rawRecs =
      ([⟨idA, nameFA, folderMime, rootOne⟩], [⟨idB, nameFB, emptyStr, rootOne⟩]) ∧
    (∀ r ∈ (make_manifest rawRecs).1, r.id ≠ idC) ∧
    (∀ r ∈ (make_manifest rawRecs).2, r.id ≠ idC) := by
  decide

/-- C10: an id that is not a key of the adjacency map is returned unchanged
by find_root (the while-loop body never runs). -/
theorem C10_find_root_external_fixed_point (adjacencies : Adj) (x : String) (fuel : Nat)
    (h : alookup adjacencies x = none) :
    find_root adjacencies (fuel + 1) x = some x := by
  simp [find_root, h]

/-- witness for C10: the external id c is a fixed point over the cyclic map. -/
theorem C10_find_root_external_fixed_point_witness :
    alookup adjCyc idC = none ∧ find_root adjCyc 1 idC = some idC :=
  ⟨by decide, C10_find_root_external_fixed_point adjCyc idC 0 (by decide)⟩

end Silencio
